import Mathlib

/-!
# Verification of the DialogueTextbox-Generator frame engine

A shallow embedding of the core logic of `generate.py` and `gradient.py`:

* Python strings are modelled as `List Char`, Python `int` as `ℤ` (indices that
  are provably nonnegative use `ℕ`), Python `float` timing values as `ℚ`
  (exact arithmetic in place of IEEE floats, noted where it matters).
* `wrap_text` (identical in both files up to an equivalent expression for the
  candidate line) is embedded over an abstract font-measure function
  `List Char → ℤ` standing for `font.size(s)[0]`.
* The typing-animation while-loop of `generate_video` (generate.py) is embedded
  as a step function `genStep` on an explicit state record, driven by a fuelled
  loop `runLoop`; every loop iteration of the Python code renders exactly one
  frame, which the embedding reports as a `FrameInfo`.
* The fixed-box pipeline of `gradient.py` (`generate_frames`, `draw_gradient`)
  is embedded directly; its typing loop terminates structurally and is defined
  by well-founded recursion.
-/

/-- Python `int(q)` on a rational: truncation toward zero. -/
def pyInt (q : ℚ) : ℤ := if 0 ≤ q then ⌊q⌋ else ⌈q⌉

/-- Python slice `l[:k]` for an arbitrary integer bound `k`
(a negative bound counts from the end, clamping at 0). -/
def pySliceTo {α : Type} (k : ℤ) (l : List α) : List α :=
  if 0 ≤ k then l.take k.toNat else l.take ((l.length : ℤ) + k).toNat

/-- Python `s.split(sep)` for a one-character separator: splits on every
occurrence, keeping empty segments; the result always has at least one
segment. -/
def splitOnChar (sep : Char) : List Char → List (List Char)
  | [] => [[]]
  | c :: cs =>
      let r := splitOnChar sep cs
      if c = sep then [] :: r
      else
        match r with
        | [] => [[c]]
        | h :: t => (c :: h) :: t

/-- Models the Python truth test `not s.strip()`: the string consists of
whitespace only. -/
def pyIsBlank (s : List Char) : Bool := s.all Char.isWhitespace

/-- The inner word loop of `wrap_text` (generate.py lines 132-143,
gradient.py lines 130-141; the two files build `test_line` with equivalent
expressions).  Processes the words of one paragraph, carrying the current
candidate line, and returns the committed lines in order (the final
`if current_line: lines.append(current_line)` is the `[]` case). -/
def processWords (measure : List Char → ℤ) (maxW : ℤ) :
    List (List Char) → List Char → List (List Char)
  | [], current => if current ≠ [] then [current] else []
  | w :: ws, current =>
      let testLine := if current ≠ [] then current ++ [' '] ++ w else w
      if measure testLine ≤ maxW then
        processWords measure maxW ws testLine
      else
        (if current ≠ [] then [current] else []) ++ processWords measure maxW ws w

/-- One paragraph of `wrap_text`: a whitespace-only paragraph yields the
blank placeholder line `" "`, otherwise the paragraph is split on spaces and
wrapped greedily. -/
def wrapParagraph (measure : List Char → ℤ) (maxW : ℤ) (p : List Char) :
    List (List Char) :=
  if pyIsBlank p then [[' ']]
  else processWords measure maxW (splitOnChar ' ' p) []

/-- `wrap_text(text, font, max_width)` of generate.py lines 125-144 /
gradient.py lines 124-142, with `measure s = font.size(s)[0]`.  Splits on hard
line breaks, wraps each paragraph, and falls back to a single blank
placeholder if no line was produced. -/
def wrap_text (text : List Char) (measure : List Char → ℤ) (maxW : ℤ) :
    List (List Char) :=
  let lines := (splitOnChar '\n' text).flatMap (wrapParagraph measure maxW)
  if lines = [] then [[' ']] else lines

/-- A line "consists of exactly one word": splitting it on spaces and
discarding empty fragments leaves exactly one word. -/
def isOneWord (s : List Char) : Prop :=
  ((splitOnChar ' ' s).filter (fun w => w ≠ [])).length = 1

instance (s : List Char) : Decidable (isOneWord s) := by
  unfold isOneWord; infer_instance

/-! ## Basic lemmas about `splitOnChar` and `processWords` -/

theorem splitOnChar_ne_nil (sep : Char) (l : List Char) :
    splitOnChar sep l ≠ [] := by
  induction l with
  | nil => simp [splitOnChar]
  | cons c cs ih =>
      simp only [splitOnChar]
      split
      · simp
      · split
        · simp
        · simp

theorem mem_splitOnChar_not_mem (sep : Char) (l : List Char) :
    ∀ w ∈ splitOnChar sep l, sep ∉ w := by
  induction l with
  | nil => intro w hw; simp [splitOnChar] at hw; simp [hw]
  | cons c cs ih =>
      intro w hw
      simp only [splitOnChar] at hw
      by_cases hc : c = sep
      · simp [hc] at hw
        rcases hw with h | h
        · simp [h]
        · exact ih w h
      · simp [hc] at hw
        rcases hsp : splitOnChar sep cs with _ | ⟨h, t⟩
        · exact absurd hsp (splitOnChar_ne_nil sep cs)
        · rw [hsp] at hw
          simp at hw
          rcases hw with h1 | h1
          · subst h1
            intro hmem
            simp at hmem
            rcases hmem with h2 | h2
            · exact hc h2.symm
            · have := ih h (by rw [hsp]; simp)
              exact this h2
          · exact ih w (by rw [hsp]; simp [h1])

theorem splitOnChar_of_not_mem (sep : Char) (l : List Char) (h : sep ∉ l) :
    splitOnChar sep l = [l] := by
  induction l with
  | nil => simp [splitOnChar]
  | cons c cs ih =>
      simp only [List.mem_cons, not_or] at h
      have hc : ¬ c = sep := fun hcc => h.1 hcc.symm
      simp only [splitOnChar, ih h.2, if_neg hc]

theorem processWords_mem_ne_nil (measure : List Char → ℤ) (maxW : ℤ) :
    ∀ (ws : List (List Char)) (current : List Char),
      ∀ line ∈ processWords measure maxW ws current, line ≠ [] := by
  intro ws
  induction ws with
  | nil =>
      intro current line hline
      simp only [processWords] at hline
      split at hline
      · simp at hline; subst hline; assumption
      · simp at hline
  | cons w ws ih =>
      intro current line hline
      simp only [processWords] at hline
      split at hline
      · split at hline
        · exact ih _ line hline
        · rw [List.mem_append] at hline
          rcases hline with h | h
          · simp at h; subst h; assumption
          · exact ih _ line h
      · split at hline
        · exact ih _ line hline
        · simp only [List.nil_append] at hline
          exact ih _ line hline

theorem processWords_good (measure : List Char → ℤ) (maxW : ℤ) :
    ∀ (ws : List (List Char)) (current : List Char),
      (∀ w ∈ ws, ' ' ∉ w) →
      (measure current ≤ maxW ∨ ' ' ∉ current) →
      ∀ line ∈ processWords measure maxW ws current,
        measure line ≤ maxW ∨ ' ' ∉ line := by
  intro ws
  induction ws with
  | nil =>
      intro current _ hcur line hline
      simp only [processWords] at hline
      split at hline
      · simp at hline; subst hline; exact hcur
      · simp at hline
  | cons w ws ih =>
      intro current hws hcur line hline
      have hw : ' ' ∉ w := hws w (by simp)
      have hws' : ∀ v ∈ ws, ' ' ∉ v := fun v hv => hws v (by simp [hv])
      simp only [processWords] at hline
      split at hline
      · split at hline
        · exact ih _ hws' (Or.inl (by assumption)) line hline
        · rw [List.mem_append] at hline
          rcases hline with h | h
          · simp at h; subst h; exact hcur
          · exact ih _ hws' (Or.inr hw) line h
      · split at hline
        · exact ih _ hws' (Or.inl (by assumption)) line hline
        · simp only [List.nil_append] at hline
          exact ih _ hws' (Or.inr hw) line hline

theorem wrap_text_lines_ne_nil (text : List Char) (measure : List Char → ℤ)
    (maxW : ℤ) : ∀ line ∈ wrap_text text measure maxW, line ≠ [] := by
  intro line hline
  simp only [wrap_text] at hline
  split at hline
  · simp at hline; subst hline; simp
  · simp only [List.mem_flatMap] at hline
    obtain ⟨p, _, hp⟩ := hline
    simp only [wrapParagraph] at hp
    split at hp
    · simp at hp; subst hp; simp
    · exact processWords_mem_ne_nil measure maxW _ [] line hp

theorem wrap_text_ne_nil (text : List Char) (measure : List Char → ℤ)
    (maxW : ℤ) : wrap_text text measure maxW ≠ [] := by
  simp only [wrap_text]
  split
  · simp
  · assumption

/-- C5 (amended): every line returned by `wrap_text` either measures at most
`maxWidth` under the supplied font-measure function, or consists of exactly one
word (a single word wider than `maxWidth` is placed alone, never split), or is
the blank placeholder line `" "` emitted for a whitespace-only paragraph. -/
theorem wrap_text_width_or_one_word (text : List Char)
    (measure : List Char → ℤ) (maxW : ℤ) :
    ∀ line ∈ wrap_text text measure maxW,
      measure line ≤ maxW ∨ isOneWord line ∨ line = [' '] := by
  intro line hline
  simp only [wrap_text] at hline
  split at hline
  · simp at hline; subst hline; right; right; rfl
  · simp only [List.mem_flatMap] at hline
    obtain ⟨p, _, hp⟩ := hline
    simp only [wrapParagraph] at hp
    split at hp
    · simp at hp; subst hp; right; right; rfl
    · have hgood := processWords_good measure maxW (splitOnChar ' ' p) []
        (mem_splitOnChar_not_mem ' ' p) (Or.inr (by simp)) line hp
      have hne := processWords_mem_ne_nil measure maxW (splitOnChar ' ' p) [] line hp
      rcases hgood with h | h
      · exact Or.inl h
      · right; left
        unfold isOneWord
        rw [splitOnChar_of_not_mem ' ' line h]
        simp [hne]

/-- C5 witness: a concrete instantiation of the amended wrap_text soundness
theorem at text `"hi"`, measure = length, maxWidth = 10. -/
theorem wrap_text_width_or_one_word_witness :
    ['h', 'i'] ∈ wrap_text ['h', 'i'] (fun l => (l.length : ℤ)) 10 ∧
      ((['h', 'i'].length : ℤ) ≤ 10 ∨ isOneWord ['h', 'i'] ∨ ['h', 'i'] = [' ']) :=
  ⟨by decide,
   wrap_text_width_or_one_word ['h', 'i'] (fun l => (l.length : ℤ)) 10
     ['h', 'i'] (by decide)⟩

/-- C5 counterexample: with input `" "` (whitespace-only), measure = length and
maxWidth = 0, `wrap_text` returns the blank placeholder `" "`, which measures
1 > 0 and does not consist of exactly one word (it contains zero words), so
the dichotomy claimed by C5 as stated fails. -/
theorem wrap_text_width_claim_counterexample :
    ¬ (∀ line ∈ wrap_text [' '] (fun l => (l.length : ℤ)) 0,
        (line.length : ℤ) ≤ 0 ∨ isOneWord line) := by
  decide

/-- C6: `wrap_text` never returns an empty sequence; empty or whitespace-only
input (without a hard line break) yields exactly the single blank placeholder
line `" "`; an input consisting of only a single hard line break yields
exactly two lines, both the blank placeholder. -/
theorem wrap_text_never_empty (measure : List Char → ℤ) (maxW : ℤ) :
    (∀ text, wrap_text text measure maxW ≠ [])
    ∧ (∀ text, (∀ c ∈ text, c.isWhitespace) → '\n' ∉ text →
        wrap_text text measure maxW = [[' ']])
    ∧ wrap_text ['\n'] measure maxW = [[' '], [' ']] := by
  refine ⟨fun text => wrap_text_ne_nil text measure maxW, fun text hws hnl => ?_, ?_⟩
  · have hsplit : splitOnChar '\n' text = [text] :=
      splitOnChar_of_not_mem '\n' text hnl
    have hblank : pyIsBlank text = true := by
      unfold pyIsBlank
      rw [List.all_eq_true]
      exact hws
    simp [wrap_text, hsplit, wrapParagraph, hblank]
  · rfl

/-- C6 witness: concrete instantiations of the three conjuncts, at measure =
length, maxWidth = 0, whitespace-only text `"  "`. -/
theorem wrap_text_never_empty_witness :
    wrap_text [' ', ' '] (fun l => (l.length : ℤ)) 0 = [[' ']] :=
  (wrap_text_never_empty (fun l => (l.length : ℤ)) 0).2.1 [' ', ' ']
    (by decide) (by decide)

/-! ## The typing-animation render loop of generate.py (`generate_video`)

The while-loop of `generate_video` (generate.py lines 271-338) is embedded as
a step function on an explicit state record.  Every iteration of the Python
loop renders exactly one frame at the bottom of the loop body (after the
state update), so the step function emits one `FrameInfo` per iteration; the
loop exits via `break` in the dwell branch, which the step function models by
returning `none`. -/

/-- The timing-relevant configuration fields of generate.py.  `dwell` is
`config["video_duration_sec_after_text"]` (a Python int or float, modelled as
an exact rational). -/
structure GenConfig where
  char_speed : ℤ
  pause_comma : ℤ
  pause_punctuation : ℤ
  fps : ℤ
  dwell : ℚ
deriving DecidableEq

/-- The mutable loop variables of `generate_video`:
`current_line_index`, `char_index`, `frame_counter`, `pause_frames`,
`animation_done`, `total_frames_rendered`, `start_of_padding_frame`
(`none` models the initial `float("inf")`). -/
structure GenState where
  li : ℕ
  ci : ℕ
  fc : ℤ
  pf : ℤ
  done : Bool
  total : ℕ
  start : Option ℕ
deriving DecidableEq

/-- The loop variables at loop entry (generate.py line 271). -/
def initState : GenState := ⟨0, 0, 0, 0, false, 0, none⟩

/-- What one rendered frame shows, plus whether the typing-sound cue
(`sound.play()`, line 292) fired on the iteration that produced it:
`li`/`ci` are the values of `current_line_index`/`char_index` at render
time, which determine the displayed text. -/
structure FrameInfo where
  li : ℕ
  ci : ℕ
  cue : Bool
deriving DecidableEq

/-- `lines[i]` with the out-of-range default `""` (only ever read in range). -/
def lineAt (lines : List (List Char)) (i : ℕ) : List Char := lines.getD i []

/-- The punctuation-pause update of generate.py lines 293-296: a comma loads
`pause_comma`, a sentence terminator loads `pause_punctuation`, any other
character leaves `pause_frames` unchanged. -/
def pauseUpd (cfg : GenConfig) (c : Char) (old : ℤ) : ℤ :=
  if c = ',' then cfg.pause_comma
  else if c = '.' ∨ c = '!' ∨ c = '?' then cfg.pause_punctuation
  else old

/-- The pause contribution of one character when the pause counter is 0
(`pauseUpd` at `old = 0`); also the per-character term summed by
`calculate_total_frames`. -/
def pausePartZ (cfg : GenConfig) (c : Char) : ℤ := pauseUpd cfg c 0

/-- Packaging of the render step at the bottom of the loop body: the frame is
rendered from the updated state, then `total_frames_rendered` increments. -/
def emit (s : GenState) (cue : Bool) : GenState × FrameInfo :=
  ({ s with total := s.total + 1 }, ⟨s.li, s.ci, cue⟩)

/-- One iteration of the `while True` loop of `generate_video`
(generate.py lines 280-333).  Returns `none` exactly when the Python loop
executes `break` (line 307); otherwise returns the updated state together
with the frame rendered by this iteration.  The `cue` component records
whether this iteration executed the `sound.play()` call site (line 292,
taken whenever a sound is configured and `char_index < len(line_text)`). -/
def genStep (lines : List (List Char)) (cfg : GenConfig) (s : GenState) :
    Option (GenState × FrameInfo) :=
  if s.done then
    match s.start with
    | some st =>
        if (st : ℚ) + cfg.dwell * (cfg.fps : ℚ) ≤ (s.total : ℚ) then none
        else some (emit s false)
    | none => some (emit s false)
  else if 0 < s.pf then
    some (emit { s with pf := s.pf - 1 } false)
  else if s.fc + 1 < cfg.char_speed then
    some (emit { s with fc := s.fc + 1 } false)
  else
    let line := lineAt lines s.li
    let cue := decide (s.ci < line.length)
    let pf' := if s.ci < line.length then pauseUpd cfg (line.getD s.ci ' ') s.pf
               else s.pf
    if s.ci + 1 < line.length then
      some (emit { s with fc := 0, pf := pf', ci := s.ci + 1 } cue)
    else if s.li + 1 < lines.length then
      some (emit { s with fc := 0, pf := pf', ci := 0, li := s.li + 1 } cue)
    else
      some (emit { s with fc := 0, pf := pf', ci := 0, li := s.li + 1,
                          done := true, start := some s.total } cue)

/-- Runs the loop with the given fuel, collecting the rendered frames in
order; `none` if the fuel was exhausted before the loop broke. -/
def runLoop (lines : List (List Char)) (cfg : GenConfig) :
    ℕ → GenState → Option (List FrameInfo)
  | 0, _ => none
  | fuel + 1, s =>
      match genStep lines cfg s with
      | none => some []
      | some (s', f) => (runLoop lines cfg fuel s').map (f :: ·)

/-- The first `n` frames of the loop (stopping early at `break`); used to
state properties of a trace prefix independently of total duration. -/
def runFor (lines : List (List Char)) (cfg : GenConfig) :
    ℕ → GenState → List FrameInfo
  | 0, _ => []
  | n + 1, s =>
      match genStep lines cfg s with
      | none => []
      | some (s', f) => f :: runFor lines cfg n s'

/-- The text displayed by a frame (generate.py lines 313-322): all lines
before `current_line_index` in full, then the revealed prefix of the current
line when one remains. -/
def displayedLines (lines : List (List Char)) (f : FrameInfo) :
    List (List Char) :=
  lines.take f.li ++
    (if f.li < lines.length then [(lineAt lines f.li).take f.ci] else [])

/-- `calculate_total_frames(lines, config)` of generate.py lines 174-187. -/
def calculate_total_frames (lines : List (List Char)) (cfg : GenConfig) : ℤ :=
  let total_chars : ℤ := ((lines.map List.length).sum : ℕ)
  let char_frames := total_chars * cfg.char_speed
  let pause_frames := ((lines.flatMap id).map (pausePartZ cfg)).sum
  let dwell_frames := pyInt (cfg.dwell * (cfg.fps : ℚ))
  char_frames + pause_frames + dwell_frames

/-! ## The exact frame count of the render loop

`R` computes, for any reachable loop state, how many more frames the loop
will render before breaking; it decreases by exactly 1 at every emitted
frame.  The invariant `genInv` captures the reachable states (for
configurations satisfying `TimingOK` and line lists satisfying
`LinesOK`). -/

/-- Wrapped line lists as produced by `wrap_text`: nonempty, with every line
nonempty. -/
def LinesOK (lines : List (List Char)) : Prop :=
  lines ≠ [] ∧ ∀ l ∈ lines, l ≠ []

/-- The timing sanity conditions assumed by the claims: at least one frame
per character, nonnegative pause budgets, positive fps, nonnegative dwell. -/
def TimingOK (cfg : GenConfig) : Prop :=
  1 ≤ cfg.char_speed ∧ 0 ≤ cfg.pause_comma ∧ 0 ≤ cfg.pause_punctuation ∧
    0 < cfg.fps ∧ 0 ≤ cfg.dwell

instance (lines : List (List Char)) : Decidable (LinesOK lines) := by
  unfold LinesOK; infer_instance

instance (cfg : GenConfig) : Decidable (TimingOK cfg) := by
  unfold TimingOK; infer_instance

/-- The characters the typing phase has not yet revealed, reading from
position (`li`, `ci`): the rest of the current line, then all later lines. -/
def remChars (lines : List (List Char)) (li ci : ℕ) : List Char :=
  (lineAt lines li).drop ci ++ (lines.drop (li + 1)).flatten

/-- The dwell budget `dwell * fps`, rounded up to the next frame boundary. -/
def ceilP (cfg : GenConfig) : ℤ := ⌈cfg.dwell * (cfg.fps : ℚ)⌉

/-- Total punctuation-pause frames contributed by a list of characters. -/
def pausesOf (cfg : GenConfig) (l : List Char) : ℤ :=
  (l.map (pausePartZ cfg)).sum

/-- Frames the loop will still render from state `s` (exact on reachable
states): the outstanding pause budget, the remaining character-step frames,
the pauses the remaining characters will trigger (the final character's
pause is dead: `animation_done` short-circuits it), and the dwell frames
past the final reveal frame. -/
def R (lines : List (List Char)) (cfg : GenConfig) (s : GenState) : ℕ :=
  if s.done then
    match s.start with
    | some st => ((st : ℤ) + ceilP cfg - (s.total : ℤ)).toNat
    | none => 0
  else
    s.pf.toNat
      + ((remChars lines s.li s.ci).length * cfg.char_speed.toNat - s.fc.toNat)
      + (pausesOf cfg (remChars lines s.li s.ci).dropLast).toNat
      + (ceilP cfg - 1).toNat

/-- States reachable by the loop: the frame counter stays in
`[0, char_speed)`, the pause budget is nonnegative, and while the animation
runs the cursor points at an unrevealed character of an existing line; once
done, the dwell start marker is set. -/
def genInv (lines : List (List Char)) (cfg : GenConfig) (s : GenState) :
    Prop :=
  0 ≤ s.fc ∧ s.fc < cfg.char_speed ∧ 0 ≤ s.pf ∧
    (if s.done = true then s.start.isSome = true
     else s.li < lines.length ∧ s.ci < (lineAt lines s.li).length)

instance (lines : List (List Char)) (cfg : GenConfig) (s : GenState) :
    Decidable (genInv lines cfg s) := by
  unfold genInv; infer_instance

theorem pausePartZ_nonneg (cfg : GenConfig) (ht : TimingOK cfg) (c : Char) :
    0 ≤ pausePartZ cfg c := by
  obtain ⟨-, h1, h2, -, -⟩ := ht
  unfold pausePartZ pauseUpd
  split
  · exact h1
  · split
    · exact h2
    · exact le_refl 0

theorem pausesOf_nonneg (cfg : GenConfig) (ht : TimingOK cfg)
    (l : List Char) : 0 ≤ pausesOf cfg l := by
  unfold pausesOf
  induction l with
  | nil => simp
  | cons c cs ih =>
      simp only [List.map_cons, List.sum_cons]
      have := pausePartZ_nonneg cfg ht c
      omega

theorem remChars_cons (lines : List (List Char)) (li ci : ℕ)
    (h : ci < (lineAt lines li).length) :
    remChars lines li ci =
      (lineAt lines li).getD ci ' ' :: remChars lines li (ci + 1) := by
  unfold remChars
  rw [List.getD_eq_getElem _ _ h, List.drop_eq_getElem_cons h]
  simp only [List.cons_append]

theorem remChars_roll (lines : List (List Char)) (li ci : ℕ)
    (h : (lineAt lines li).length ≤ ci) :
    remChars lines li ci = remChars lines (li + 1) 0 := by
  unfold remChars lineAt
  unfold lineAt at h
  rw [List.drop_eq_nil_of_le h, List.drop_zero, List.nil_append]
  by_cases hlt : li + 1 < lines.length
  · rw [List.getD_eq_getElem _ _ hlt, List.drop_eq_getElem_cons hlt,
      List.flatten_cons]
  · push_neg at hlt
    rw [List.getD_eq_default _ _ hlt, List.drop_eq_nil_of_le hlt,
      List.drop_eq_nil_of_le (by omega)]
    simp

theorem remChars_zero (lines : List (List Char)) :
    remChars lines 0 0 = lines.flatten := by
  unfold remChars
  cases lines with
  | nil => simp [lineAt]
  | cons l ls => simp [lineAt]

theorem reveal_count_arith (k cs' p y d : ℕ) (hk : 1 ≤ k) (hcs : 1 ≤ cs') :
    k * cs' - (cs' - 1) + (p + y) + d = p + ((k - 1) * cs' - 0) + y + d + 1 := by
  have hx : k * cs' = (k - 1) * cs' + cs' := by
    cases k with
    | zero => omega
    | succ n => simp [Nat.succ_mul]
  omega

/-- The loop renders exactly one more frame: stepping from any reachable
state preserves reachability and decreases the remaining-frame count `R` by
exactly one. -/
theorem genStep_decr (lines : List (List Char)) (cfg : GenConfig)
    (hl : LinesOK lines) (ht : TimingOK cfg) (s s' : GenState) (f : FrameInfo)
    (hInv : genInv lines cfg s) (h : genStep lines cfg s = some (s', f)) :
    genInv lines cfg s' ∧ R lines cfg s = R lines cfg s' + 1 := by
  obtain ⟨hcs, hpcm, hppn, hfps, hdw⟩ := ht
  obtain ⟨hfc0, hfcs, hpf0, hrest⟩ := hInv
  by_cases hd : s.done = true
  · -- dwell phase
    rw [if_pos hd] at hrest
    obtain ⟨st, hst⟩ := Option.isSome_iff_exists.mp hrest
    simp only [genStep, hd, if_true, hst] at h
    split at h
    · exact absurd h (by simp)
    · rename_i hlt
      simp only [emit, Option.some.injEq, Prod.mk.injEq] at h
      obtain ⟨hs', -⟩ := h
      subst hs'
      push_neg at hlt
      have hceil : (s.total : ℤ) - (st : ℤ) < ceilP cfg := by
        rw [ceilP, Int.lt_ceil]
        push_cast
        linarith
      constructor
      · exact ⟨hfc0, hfcs, hpf0,
          by simp only [hd, if_true]; exact hrest⟩
      · simp only [R]
        try dsimp only
        simp only [hd, if_true, hst]
        omega
  · -- typing phase
    rw [if_neg hd] at hrest
    obtain ⟨hli, hci⟩ := hrest
    rw [Bool.not_eq_true] at hd
    simp only [genStep, hd, Bool.false_eq_true, if_false] at h
    have hkrem : 1 ≤ (remChars lines s.li s.ci).length := by
      rw [remChars_cons lines s.li s.ci hci]
      simp
    have hcs1 : 1 ≤ cfg.char_speed.toNat := by omega
    by_cases hpf : 0 < s.pf
    · simp only [hpf, if_true, emit, Option.some.injEq, Prod.mk.injEq] at h
      obtain ⟨hs', -⟩ := h
      subst hs'
      refine ⟨⟨hfc0, hfcs, by dsimp only; omega, ?_⟩, ?_⟩
      · try dsimp only
        simp only [hd, Bool.false_eq_true, if_false]
        exact ⟨hli, hci⟩
      · simp only [R]
        try dsimp only
        simp only [hd, Bool.false_eq_true, if_false]
        omega
    · simp only [hpf, if_false] at h
      by_cases hcount : s.fc + 1 < cfg.char_speed
      · simp only [hcount, if_true, emit, Option.some.injEq, Prod.mk.injEq] at h
        obtain ⟨hs', -⟩ := h
        subst hs'
        refine ⟨⟨by dsimp only; omega, hcount, hpf0, ?_⟩, ?_⟩
        · try dsimp only
          simp only [hd, Bool.false_eq_true, if_false]
          exact ⟨hli, hci⟩
        · simp only [R]
          try dsimp only
          simp only [hd, Bool.false_eq_true, if_false]
          have hmul : cfg.char_speed.toNat ≤
              (remChars lines s.li s.ci).length * cfg.char_speed.toNat :=
            Nat.le_mul_of_pos_left _ (by omega)
          omega
      · -- character-reveal step
        have hpfz : s.pf = 0 := by omega
        have hfceq : s.fc = cfg.char_speed - 1 := by omega
        simp only [hcount, if_false, hci, if_true, emit, Option.some.injEq,
          Prod.mk.injEq] at h
        set c : Char := (lineAt lines s.li).getD s.ci ' ' with hc
        have hrem : remChars lines s.li s.ci = c :: remChars lines s.li (s.ci + 1) :=
          remChars_cons lines s.li s.ci hci
        have hpval : pauseUpd cfg c s.pf = pausePartZ cfg c := by
          rw [hpfz]; rfl
        have hpnn : 0 ≤ pausePartZ cfg c :=
          pausePartZ_nonneg cfg ⟨hcs, hpcm, hppn, hfps, hdw⟩ c
        by_cases hstay : s.ci + 1 < (lineAt lines s.li).length
        · simp only [hstay, if_true, Option.some.injEq, Prod.mk.injEq] at h
          obtain ⟨hs', -⟩ := h
          subst hs'
          have hrest_ne : remChars lines s.li (s.ci + 1) ≠ [] := by
            rw [remChars_cons lines s.li (s.ci + 1) hstay]
            simp
          refine ⟨⟨by dsimp only; omega, by dsimp only; omega, by dsimp only; rw [hpval]; exact hpnn, ?_⟩, ?_⟩
          · try dsimp only
            simp only [hd, Bool.false_eq_true, if_false]
            exact ⟨hli, hstay⟩
          · simp only [R]
            try dsimp only
            simp only [hd, Bool.false_eq_true, if_false]
            rw [hrem, List.dropLast_cons_of_ne_nil hrest_ne, hpval, hpfz]
            simp only [List.length_cons, pausesOf, List.map_cons, List.sum_cons]
            have hpn2 : (0:ℤ) ≤
                (List.map (pausePartZ cfg) (remChars lines s.li (s.ci + 1)).dropLast).sum :=
              pausesOf_nonneg cfg ⟨hcs, hpcm, hppn, hfps, hdw⟩ _
            rw [Int.toNat_add hpnn hpn2]
            have harith := reveal_count_arith
              ((remChars lines s.li (s.ci + 1)).length + 1) cfg.char_speed.toNat
              (pausePartZ cfg c).toNat
              ((List.map (pausePartZ cfg) (remChars lines s.li (s.ci + 1)).dropLast).sum.toNat)
              ((ceilP cfg - 1).toNat) (by omega) hcs1
            simp only [Nat.add_sub_cancel] at harith
            omega
        · -- line advance
          simp only [hstay, if_false] at h
          push_neg at hstay
          have hroll : remChars lines s.li (s.ci + 1) = remChars lines (s.li + 1) 0 :=
            remChars_roll lines s.li (s.ci + 1) hstay
          by_cases hnext : s.li + 1 < lines.length
          · simp only [hnext, if_true, Option.some.injEq, Prod.mk.injEq] at h
            obtain ⟨hs', -⟩ := h
            subst hs'
            have hline_ne : lineAt lines (s.li + 1) ≠ [] := by
              rw [lineAt, List.getD_eq_getElem _ _ hnext]
              exact hl.2 _ (List.getElem_mem hnext)
            have hrest_ne : remChars lines (s.li + 1) 0 ≠ [] := by
              rw [remChars]
              simp only [List.drop_zero]
              intro hcon
              rw [List.append_eq_nil] at hcon
              exact hline_ne hcon.1
            refine ⟨⟨by dsimp only; omega, by dsimp only; omega, by dsimp only; rw [hpval]; exact hpnn, ?_⟩, ?_⟩
            · try dsimp only
              simp only [hd, Bool.false_eq_true, if_false]
              exact ⟨hnext, List.length_pos.mpr hline_ne⟩
            · simp only [R]
              try dsimp only
              simp only [hd, Bool.false_eq_true, if_false]
              rw [hrem, hroll, List.dropLast_cons_of_ne_nil hrest_ne, hpval, hpfz]
              simp only [List.length_cons, pausesOf, List.map_cons, List.sum_cons]
              have hpn2 : (0:ℤ) ≤
                  (List.map (pausePartZ cfg) (remChars lines (s.li + 1) 0).dropLast).sum :=
                pausesOf_nonneg cfg ⟨hcs, hpcm, hppn, hfps, hdw⟩ _
              rw [Int.toNat_add hpnn hpn2]
              have harith := reveal_count_arith
                ((remChars lines (s.li + 1) 0).length + 1) cfg.char_speed.toNat
                (pausePartZ cfg c).toNat
                ((List.map (pausePartZ cfg) (remChars lines (s.li + 1) 0).dropLast).sum.toNat)
                ((ceilP cfg - 1).toNat) (by omega) hcs1
              simp only [Nat.add_sub_cancel] at harith
              omega
          · -- final character: animation completes
            simp only [hnext, if_false, Option.some.injEq, Prod.mk.injEq] at h
            obtain ⟨hs', -⟩ := h
            subst hs'
            push_neg at hnext
            have hrest_nil : remChars lines (s.li + 1) 0 = [] := by
              rw [remChars, lineAt, List.getD_eq_default _ _ hnext,
                List.drop_eq_nil_of_le
                  (show lines.length ≤ s.li + 1 + 1 by omega)]
              simp
            refine ⟨⟨by dsimp only; omega, by dsimp only; omega, by dsimp only; rw [hpval]; exact hpnn, by simp⟩, ?_⟩
            simp only [R]
            try dsimp only
            simp only [hd, Bool.false_eq_true, if_false, if_true]
            rw [hrem, hroll, hrest_nil]
            simp only [List.dropLast_single, List.length_cons, List.length_nil,
              pausesOf, List.map_nil, List.sum_nil, Int.toNat_zero, hpfz]
            omega

/-- The loop breaks exactly when no frames remain. -/
theorem genStep_none_R (lines : List (List Char)) (cfg : GenConfig)
    (s : GenState) (h : genStep lines cfg s = none) : R lines cfg s = 0 := by
  by_cases hd : s.done = true
  · cases hst : s.start with
    | none => simp only [genStep, hd, if_true, hst] at h; simp at h
    | some st =>
        simp only [genStep, hd, if_true, hst] at h
        split at h
        · rename_i hle
          have hceil : (st : ℤ) + ceilP cfg ≤ (s.total : ℤ) := by
            have h2 : ⌈cfg.dwell * (cfg.fps : ℚ)⌉ ≤ (s.total : ℤ) - (st : ℤ) := by
              rw [Int.ceil_le]
              push_cast
              linarith
            rw [ceilP]
            omega
          simp only [R, hd, if_true, hst]
          omega
        · simp at h
  · rw [Bool.not_eq_true] at hd
    simp only [genStep, hd, Bool.false_eq_true, if_false] at h
    split at h
    · simp at h
    · split at h
      · simp at h
      · split at h
        · simp at h
        · split at h
          · simp at h
          · simp at h

theorem runLoop_succ (lines : List (List Char)) (cfg : GenConfig)
    (fuel : ℕ) (s : GenState) :
    runLoop lines cfg (fuel + 1) s =
      match genStep lines cfg s with
      | none => some []
      | some (s', f) => (runLoop lines cfg fuel s').map (f :: ·) := rfl

/-- Running the loop with adequate fuel from any reachable state emits
exactly `R` frames and terminates. -/
theorem runLoop_spec (lines : List (List Char)) (cfg : GenConfig)
    (hl : LinesOK lines) (ht : TimingOK cfg) :
    ∀ (n : ℕ) (s : GenState), genInv lines cfg s → R lines cfg s = n →
      (runLoop lines cfg (n + 1) s).map List.length = some n := by
  intro n
  induction n with
  | zero =>
      intro s hInv hR
      cases h : genStep lines cfg s with
      | none => simp [runLoop, h]
      | some p =>
          obtain ⟨s', f⟩ := p
          have hdec := genStep_decr lines cfg hl ht s s' f hInv h
          omega
  | succ n ih =>
      intro s hInv hR
      cases h : genStep lines cfg s with
      | none =>
          have := genStep_none_R lines cfg s h
          omega
      | some p =>
          obtain ⟨s', f⟩ := p
          have hdec := genStep_decr lines cfg hl ht s s' f hInv h
          have hr' : R lines cfg s' = n := by omega
          have hih := ih s' hdec.1 hr'
          cases hrl : runLoop lines cfg (n + 1) s' with
          | none => rw [hrl] at hih; simp at hih
          | some l =>
              rw [hrl] at hih
              have hlen : l.length = n := by simpa using hih
              rw [runLoop_succ, h]
              dsimp only
              rw [hrl]
              simp [hlen]

/-- The closed-form number of frames the render loop actually emits:
`(total characters) * char_speed` typing frames, plus the pause budget
triggered by every punctuation character except the final character of the
final line (whose pause is short-circuited by `animation_done`), plus
`max 1 ⌈dwell*fps⌉` frames showing the completed text, minus the final
reveal frame already counted in the typing frames. -/
def expectedFrames (lines : List (List Char)) (cfg : GenConfig) : ℕ :=
  (lines.map List.length).sum * cfg.char_speed.toNat
    + (pausesOf cfg lines.flatten.dropLast).toNat
    + (ceilP cfg - 1).toNat

theorem genInv_init (lines : List (List Char)) (cfg : GenConfig)
    (hl : LinesOK lines) (ht : TimingOK cfg) :
    genInv lines cfg initState := by
  have h1 := ht.1
  have h4 : 0 < lines.length ∧ 0 < (lineAt lines 0).length := by
    cases lines with
    | nil => exact absurd rfl hl.1
    | cons l ls =>
        refine ⟨by simp, ?_⟩
        have hne : l ≠ [] := hl.2 l (by simp)
        simpa [lineAt, List.length_pos] using hne
  exact ⟨le_refl 0, show (0 : ℤ) < cfg.char_speed by omega, le_refl 0, h4⟩

theorem R_init (lines : List (List Char)) (cfg : GenConfig) :
    R lines cfg initState = expectedFrames lines cfg := by
  simp only [R, initState, Bool.false_eq_true, if_false, expectedFrames,
    remChars_zero, List.length_flatten, Int.toNat_zero]
  omega

/-- C1 (amended): for every nonempty wrapped line list (all lines nonempty)
and timing configuration with `char_speed ≥ 1`, pauses `≥ 0`, `fps > 0` and
dwell `≥ 0`, the render loop of generate.py terminates and emits exactly
`sum(len(line)) * char_speed` frames, plus the pauses of every
punctuation character except the final character of the final line (whose
pause is short-circuited when `animation_done` is set in the same step),
plus `max 1 ⌈dwell*fps⌉ - 1` further frames — not the value
`calculate_total_frames` predicts. -/
theorem generate_video_frame_count (lines : List (List Char))
    (cfg : GenConfig) (hl : LinesOK lines) (ht : TimingOK cfg) :
    (runLoop lines cfg (expectedFrames lines cfg + 1) initState).map
        List.length = some (expectedFrames lines cfg) :=
  runLoop_spec lines cfg hl ht (expectedFrames lines cfg) initState
    (genInv_init lines cfg hl ht) (R_init lines cfg)

unseal Rat.mul Rat.add in
/-- C1 witness: the amended count theorem instantiated at the single line
`"Hi."` with char_speed 1, comma pause 4, sentence pause 10, fps 30 and a
2-second dwell: exactly 62 frames are emitted. -/
theorem generate_video_frame_count_witness :
    (runLoop ["Hi.".toList] ⟨1, 4, 10, 30, 2⟩ 63 initState).map
        List.length = some 62 := by
  have h := generate_video_frame_count ["Hi.".toList] ⟨1, 4, 10, 30, 2⟩
    (by decide) (by decide)
  have he : expectedFrames ["Hi.".toList] ⟨1, 4, 10, 30, 2⟩ = 62 := by decide
  rw [he] at h
  exact h

unseal Rat.mul Rat.add in
/-- C1 counterexample: for the line `"Hi."` with char_speed 1, comma pause 4,
sentence pause 10, fps 30 and 2-second dwell, the render loop emits 62
frames while `calculate_total_frames` returns 73 (it counts the dead pause
of the final '.' and one frame too many at the typing/dwell boundary), so
the claimed equality fails. -/
theorem calculate_total_frames_mismatch :
    (runLoop ["Hi.".toList] ⟨1, 4, 10, 30, 2⟩ 100 initState).map
        (fun l => (l.length : ℤ))
      ≠ some (calculate_total_frames ["Hi.".toList] ⟨1, 4, 10, 30, 2⟩) := by
  decide

unseal Rat.mul Rat.add in
/-- C2 (amended): for the single wrapped line `"Hi."` with frames-per-char 1,
comma pause 4, sentence pause 10 and a 2-second dwell at 30 fps, the render
loop emits exactly 62 frames (not 72: the '.' pause is short-circuited by
`animation_done` and the final reveal frame overlaps the dwell by one), and
the last 60 emitted frames all render the complete line unchanged. -/
theorem scenario_hi_amended :
    (runLoop ["Hi.".toList] ⟨1, 4, 10, 30, 2⟩ 63 initState).map
        (fun l => (l.length,
          (l.drop 2).all fun fr =>
            decide (displayedLines ["Hi.".toList] fr = ["Hi.".toList])))
      = some (62, true) := by
  decide

unseal Rat.mul Rat.add in
/-- C2 counterexample: the same scenario does not emit 72 frames. -/
theorem scenario_hi_72_counterexample :
    (runLoop ["Hi.".toList] ⟨1, 4, 10, 30, 2⟩ 100 initState).map
        List.length ≠ some 72 := by
  decide

/-- C3: for the single line `"a,b"` with frames-per-character 1 and comma
pause 4 (any sentence pause, fps and dwell), the first seven frames are:
reveal 'a', reveal ',', four pause frames with `char_index` unchanged at 2,
and only then the frame revealing 'b' (which completes the line). -/
theorem scenario_comma_pause (pp fps : ℤ) (dw : ℚ) :
    runFor ["a,b".toList] ⟨1, 4, pp, fps, dw⟩ 7 initState =
      [⟨0, 1, true⟩, ⟨0, 2, true⟩, ⟨0, 2, false⟩, ⟨0, 2, false⟩,
       ⟨0, 2, false⟩, ⟨0, 2, false⟩, ⟨1, 0, true⟩] := rfl

/-- C4 (amended): on every step from a reachable state, the typing-sound cue
fires if and only if the step reveals a new character — whitespace included;
in particular it never fires while a pause budget is being consumed or
during the post-completion dwell (those steps leave the cursor unchanged). -/
theorem sound_cue_fires_iff_reveal (lines : List (List Char))
    (cfg : GenConfig) (s s' : GenState) (f : FrameInfo)
    (hInv : genInv lines cfg s) (h : genStep lines cfg s = some (s', f)) :
    f.cue = true ↔ (s'.li, s'.ci) ≠ (s.li, s.ci) := by
  obtain ⟨hfc0, hfcs, hpf0, hrest⟩ := hInv
  by_cases hd : s.done = true
  · simp only [genStep, hd, if_true] at h
    cases hst : s.start with
    | none =>
        simp only [hst, emit, Option.some.injEq, Prod.mk.injEq] at h
        obtain ⟨hs', hf⟩ := h
        subst hs'; subst hf
        simp
    | some st =>
        simp only [hst] at h
        split at h
        · exact absurd h (by simp)
        · simp only [emit, Option.some.injEq, Prod.mk.injEq] at h
          obtain ⟨hs', hf⟩ := h
          subst hs'; subst hf
          simp
  · rw [if_neg hd] at hrest
    obtain ⟨hli, hci⟩ := hrest
    rw [Bool.not_eq_true] at hd
    simp only [genStep, hd, Bool.false_eq_true, if_false] at h
    split at h
    · simp only [emit, Option.some.injEq, Prod.mk.injEq] at h
      obtain ⟨hs', hf⟩ := h
      subst hs'; subst hf
      simp
    · split at h
      · simp only [emit, Option.some.injEq, Prod.mk.injEq] at h
        obtain ⟨hs', hf⟩ := h
        subst hs'; subst hf
        simp
      · split at h
        · simp only [emit, Option.some.injEq, Prod.mk.injEq] at h
          obtain ⟨hs', hf⟩ := h
          subst hs'; subst hf
          simp [hci]
        · split at h
          · simp only [emit, Option.some.injEq, Prod.mk.injEq] at h
            obtain ⟨hs', hf⟩ := h
            subst hs'; subst hf
            simp [hci]
          · simp only [emit, Option.some.injEq, Prod.mk.injEq] at h
            obtain ⟨hs', hf⟩ := h
            subst hs'; subst hf
            simp [hci]

/-- C4 witness: the amended cue theorem instantiated at the first step of
the line `"a"`: the step reveals 'a' (completing the animation) and the
cue fires. -/
theorem sound_cue_fires_iff_reveal_witness :
    (⟨1, 0, true⟩ : FrameInfo).cue = true ↔
      (((⟨1, 0, 0, 0, true, 1, some 0⟩ : GenState).li,
        (⟨1, 0, 0, 0, true, 1, some 0⟩ : GenState).ci) ≠
        (initState.li, initState.ci)) :=
  sound_cue_fires_iff_reveal ["a".toList] ⟨1, 4, 10, 30, 2⟩ initState
    ⟨1, 0, 0, 0, true, 1, some 0⟩ ⟨1, 0, true⟩ (by decide) (by decide)

/-- C4 counterexample: with the single line `"a b"` the step that reveals
the whitespace character ' ' fires the typing-sound cue, so the cue is not
restricted to non-whitespace characters as claimed. -/
theorem sound_cue_whitespace_counterexample :
    ¬ (∀ (s s' : GenState) (f : FrameInfo),
        genInv ["a b".toList] ⟨1, 4, 10, 30, 2⟩ s →
        genStep ["a b".toList] ⟨1, 4, 10, 30, 2⟩ s = some (s', f) →
        (f.cue = true ↔ ((s'.li, s'.ci) ≠ (s.li, s.ci) ∧
          ¬ ((lineAt ["a b".toList] s.li).getD s.ci ' ').isWhitespace))) := by
  intro hcl
  have h := hcl ⟨0, 1, 0, 0, false, 1, none⟩ ⟨0, 2, 0, 0, false, 2, none⟩
    ⟨0, 2, true⟩ (by decide) (by decide)
  revert h
  decide

/-- C7: the current line index never decreases — on every step the cursor
either stays on the same line (with the revealed-character count unchanged
or incremented) or moves to the next line with the count reset to 0 — and
for every line list produced by `wrap_text` and timing configuration
satisfying the sanity bounds, the loop terminates in finitely many steps. -/
theorem reveal_monotone_and_terminates (lines : List (List Char))
    (cfg : GenConfig)
    (hw : ∃ text measure maxW, lines = wrap_text text measure maxW)
    (ht : TimingOK cfg) :
    (∀ (s s' : GenState) (f : FrameInfo),
        genStep lines cfg s = some (s', f) →
        s.li ≤ s'.li ∧
          ((s'.li = s.li ∧ (s'.ci = s.ci ∨ s'.ci = s.ci + 1)) ∨
            (s'.li = s.li + 1 ∧ s'.ci = 0)))
    ∧ (runLoop lines cfg (expectedFrames lines cfg + 1) initState).isSome := by
  obtain ⟨text, measure, maxW, hweq⟩ := hw
  have hl : LinesOK lines := by
    subst hweq
    exact ⟨wrap_text_ne_nil _ _ _, wrap_text_lines_ne_nil _ _ _⟩
  constructor
  · intro s s' f h
    by_cases hd : s.done = true
    · simp only [genStep, hd, if_true] at h
      cases hst : s.start with
      | none =>
          simp only [hst, emit, Option.some.injEq, Prod.mk.injEq] at h
          obtain ⟨hs', -⟩ := h
          subst hs'
          exact ⟨le_refl _, Or.inl ⟨rfl, Or.inl rfl⟩⟩
      | some st =>
          simp only [hst] at h
          split at h
          · exact absurd h (by simp)
          · simp only [emit, Option.some.injEq, Prod.mk.injEq] at h
            obtain ⟨hs', -⟩ := h
            subst hs'
            exact ⟨le_refl _, Or.inl ⟨rfl, Or.inl rfl⟩⟩
    · rw [Bool.not_eq_true] at hd
      simp only [genStep, hd, Bool.false_eq_true, if_false] at h
      split at h
      · simp only [emit, Option.some.injEq, Prod.mk.injEq] at h
        obtain ⟨hs', -⟩ := h
        subst hs'
        exact ⟨le_refl _, Or.inl ⟨rfl, Or.inl rfl⟩⟩
      · split at h
        · simp only [emit, Option.some.injEq, Prod.mk.injEq] at h
          obtain ⟨hs', -⟩ := h
          subst hs'
          exact ⟨le_refl _, Or.inl ⟨rfl, Or.inl rfl⟩⟩
        · split at h
          · simp only [emit, Option.some.injEq, Prod.mk.injEq] at h
            obtain ⟨hs', -⟩ := h
            subst hs'
            exact ⟨le_refl _, Or.inl ⟨rfl, Or.inr rfl⟩⟩
          · split at h
            · simp only [emit, Option.some.injEq, Prod.mk.injEq] at h
              obtain ⟨hs', -⟩ := h
              subst hs'
              exact ⟨Nat.le_succ _, Or.inr ⟨rfl, rfl⟩⟩
            · simp only [emit, Option.some.injEq, Prod.mk.injEq] at h
              obtain ⟨hs', -⟩ := h
              subst hs'
              exact ⟨Nat.le_succ _, Or.inr ⟨rfl, rfl⟩⟩
  · have hspec := runLoop_spec lines cfg hl ht (expectedFrames lines cfg)
      initState (genInv_init lines cfg hl ht) (R_init lines cfg)
    cases hrl : runLoop lines cfg (expectedFrames lines cfg + 1) initState with
    | none => rw [hrl] at hspec; simp at hspec
    | some l => simp

unseal Rat.mul Rat.add in
/-- C7 witness: the monotonicity-and-termination theorem instantiated at the
wrap of `"Hi."` under the trivial measure, with the default timing. -/
theorem reveal_monotone_and_terminates_witness :
    (∀ (s s' : GenState) (f : FrameInfo),
        genStep ["Hi.".toList] ⟨1, 4, 10, 30, 2⟩ s = some (s', f) →
        s.li ≤ s'.li ∧
          ((s'.li = s.li ∧ (s'.ci = s.ci ∨ s'.ci = s.ci + 1)) ∨
            (s'.li = s.li + 1 ∧ s'.ci = 0)))
    ∧ (runLoop ["Hi.".toList] ⟨1, 4, 10, 30, 2⟩
        (expectedFrames ["Hi.".toList] ⟨1, 4, 10, 30, 2⟩ + 1) initState).isSome :=
  reveal_monotone_and_terminates ["Hi.".toList] ⟨1, 4, 10, 30, 2⟩
    ⟨"Hi.".toList, fun _ => 0, 100, by decide⟩ (by decide)

/-! ## gradient.py: the gradient fill and the fixed-box frame pipeline -/

/-- An RGBA color with integer channels (gradient.py colors are 4-element
lists). -/
structure Rgba where
  r : ℤ
  g : ℤ
  b : ℤ
  a : ℤ
deriving DecidableEq

/-- The normalized position `t = pos / (len - 1) if len > 1 else 0` of
`draw_gradient` (gradient.py lines 150 and 158). -/
def gradT (pos len : ℕ) : ℚ :=
  if 1 < len then (pos : ℚ) / ((len : ℚ) - 1) else 0

/-- One channel of the gradient scanline color:
`int(color1[i] * (1 - t) + color2[i] * t)` (gradient.py lines 151-154). -/
def gradChannel (c1 c2 : ℤ) (t : ℚ) : ℤ :=
  pyInt ((c1 : ℚ) * (1 - t) + (c2 : ℚ) * t)

/-- The color `(r, g, b, a)` painted on one scanline of the gradient. -/
def gradRowColor (c1 c2 : Rgba) (pos len : ℕ) : Rgba :=
  ⟨gradChannel c1.r c2.r (gradT pos len), gradChannel c1.g c2.g (gradT pos len),
   gradChannel c1.b c2.b (gradT pos len), gradChannel c1.a c2.a (gradT pos len)⟩

/-- The two gradient directions of gradient.py. -/
inductive GradDir
  | vertical
  | horizontal
deriving DecidableEq

/-- `draw_gradient(surface, color1, color2, direction)` of gradient.py lines
145-163 as a pixel function: the vertical branch paints every pixel of row
`y` with the interpolated color at `t = y/(height-1)`, the horizontal branch
paints every pixel of column `x` with the color at `t = x/(width-1)`. -/
def draw_gradient (c1 c2 : Rgba) (width height : ℕ) (dir : GradDir)
    (x y : ℕ) : Rgba :=
  match dir with
  | .vertical => gradRowColor c1 c2 y height
  | .horizontal => gradRowColor c1 c2 x width

/-- The rounding mode named by the spec ("rounded to the nearest integer"):
round half up. -/
def roundNearest (q : ℚ) : ℤ := ⌊q + 1 / 2⌋

/-- The configuration fields of gradient.py used by `generate_frames`. -/
structure GradCfg where
  box_w : ℤ
  box_h : ℤ
  padding : ℤ
  fps : ℤ
  dwell_time : ℚ

/-- `max_lines = (screen_height - 2 * padding) // line_height` followed by
the Python truncation `text_lines = text_lines[:max_lines]` (gradient.py
lines 195-196); `line_height` is `font.get_height()`. -/
def keptLines (text_lines : List (List Char)) (line_height : ℤ)
    (cfg : GradCfg) : List (List Char) :=
  pySliceTo ((cfg.box_h - 2 * cfg.padding).fdiv line_height) text_lines

/-- `dwell_frames = int(config["dwell_time"] * config["fps"])`, clamped at 0
as by `for _ in range(dwell_frames)` (gradient.py lines 204 and 234). -/
def dwellN (cfg : GradCfg) : ℕ :=
  (pyInt (cfg.dwell_time * (cfg.fps : ℚ))).toNat

/-- The typing while-loop of `generate_frames` (gradient.py lines 211-232):
each iteration renders the lines before `current_line` in full plus the
first `current_char` characters of the current line, then advances
`current_char` (rolling to the next line once it passes the line length).
A frame is the list of text lines it renders. -/
def gradTyping (kept : List (List Char)) (cl cc : ℕ) :
    List (List (List Char)) :=
  if h : cl < kept.length then
    if (kept.getD cl []).length < cc + 1 then
      (kept.take cl ++ [(kept.getD cl []).take cc]) :: gradTyping kept (cl + 1) 0
    else
      (kept.take cl ++ [(kept.getD cl []).take cc]) :: gradTyping kept cl (cc + 1)
  else []
termination_by (kept.length - cl, (kept.getD cl []).length + 1 - cc)
decreasing_by
  · apply Prod.Lex.left
    omega
  · apply Prod.Lex.right
    omega

/-- `generate_frames(text_lines, font, temp_dir, config)` of gradient.py
lines 190-249 as the sequence of frames written to disk: the typing frames,
then `int(dwell_time * fps)` frames showing every kept line in full. -/
def generate_frames (text_lines : List (List Char)) (line_height : ℤ)
    (cfg : GradCfg) : List (List (List Char)) :=
  gradTyping (keptLines text_lines line_height cfg) 0 0
    ++ List.replicate (dwellN cfg) (keptLines text_lines line_height cfg)

theorem gradTyping_length (kept : List (List Char)) :
    ∀ cl cc, cc ≤ (kept.getD cl []).length →
      (gradTyping kept cl cc).length
        = ((kept.drop cl).map (fun l => l.length + 1)).sum - cc := by
  intro cl cc
  induction cl, cc using gradTyping.induct kept with
  | case1 cl cc h1 h2 ih =>
      intro hcc
      rw [gradTyping, dif_pos h1, if_pos h2]
      rw [List.length_cons, ih (by omega)]
      rw [List.drop_eq_getElem_cons h1, List.map_cons, List.sum_cons]
      rw [List.getD_eq_getElem _ _ h1] at hcc h2
      omega
  | case2 cl cc h1 h2 ih =>
      intro hcc
      rw [gradTyping, dif_pos h1, if_neg h2]
      rw [List.length_cons, ih (by omega)]
      rw [List.drop_eq_getElem_cons h1, List.map_cons, List.sum_cons]
      rw [List.getD_eq_getElem _ _ h1] at hcc h2
      omega
  | case3 cl cc h1 =>
      intro hcc
      rw [gradTyping, dif_neg h1]
      push_neg at h1
      rw [List.drop_eq_nil_of_le h1]
      rw [List.getD_eq_default _ _ h1] at hcc
      simp at hcc
      simp [hcc]

theorem gradTyping_mem (kept : List (List Char)) :
    ∀ cl cc, ∀ frame ∈ gradTyping kept cl cc, ∀ s ∈ frame,
      ∃ j, j < kept.length ∧ ∃ m, s = (kept.getD j []).take m := by
  have hmem : ∀ s ∈ kept, ∃ j, j < kept.length ∧
      ∃ m, s = (kept.getD j []).take m := by
    intro s hsm
    obtain ⟨j, hj, hsj⟩ := List.mem_iff_getElem.mp hsm
    exact ⟨j, hj, s.length,
      by rw [List.getD_eq_getElem _ _ hj, hsj, List.take_length]⟩
  have hhead : ∀ cl cc, cl < kept.length →
      ∀ s ∈ kept.take cl ++ [(kept.getD cl []).take cc],
        ∃ j, j < kept.length ∧ ∃ m, s = (kept.getD j []).take m := by
    intro cl cc h1 s hs
    rw [List.mem_append] at hs
    rcases hs with hs | hs
    · exact hmem s (List.mem_of_mem_take hs)
    · rw [List.mem_singleton] at hs
      exact ⟨cl, h1, cc, hs⟩
  intro cl cc
  induction cl, cc using gradTyping.induct kept with
  | case1 cl cc h1 h2 ih =>
      intro frame hf s hs
      rw [gradTyping, dif_pos h1, if_pos h2] at hf
      rcases List.mem_cons.mp hf with hf | hf
      · subst hf
        exact hhead cl cc h1 s hs
      · exact ih frame hf s hs
  | case2 cl cc h1 h2 ih =>
      intro frame hf s hs
      rw [gradTyping, dif_pos h1, if_neg h2] at hf
      rcases List.mem_cons.mp hf with hf | hf
      · subst hf
        exact hhead cl cc h1 s hs
      · exact ih frame hf s hs
  | case3 cl cc h1 =>
      intro frame hf
      rw [gradTyping, dif_neg h1] at hf
      simp at hf

theorem gradTyping_mem_full (kept : List (List Char)) :
    ∀ s ∈ kept, ∃ j, j < kept.length ∧ ∃ m, s = (kept.getD j []).take m := by
  intro s hsm
  obtain ⟨j, hj, hsj⟩ := List.mem_iff_getElem.mp hsm
  exact ⟨j, hj, s.length,
    by rw [List.getD_eq_getElem _ _ hj, hsj, List.take_length]⟩

theorem gradT_zero (H : ℕ) : gradT 0 H = 0 := by
  simp [gradT]

theorem gradT_last (H : ℕ) (h2 : 2 ≤ H) : gradT (H - 1) H = 1 := by
  have hlt : 1 < H := by omega
  rw [gradT, if_pos hlt]
  rw [Nat.cast_sub (by omega : 1 ≤ H), Nat.cast_one]
  rw [div_self]
  exact sub_ne_zero.mpr (by exact_mod_cast (by omega : H ≠ 1))

theorem gradT_mid (H : ℕ) (h2 : 2 ≤ H) (hodd : H % 2 = 1) :
    gradT (H / 2) H = 1 / 2 := by
  obtain ⟨m, hm⟩ : ∃ m, H = 2 * m + 1 := ⟨H / 2, by omega⟩
  subst hm
  have hdiv : (2 * m + 1) / 2 = m := by omega
  rw [hdiv, gradT, if_pos (by omega : 1 < 2 * m + 1)]
  have hm0 : (m : ℚ) ≠ 0 :=
    ne_of_gt (by exact_mod_cast (by omega : 0 < m))
  push_cast
  field_simp
  ring

theorem gradChannel_zero (c1 c2 : ℤ) : gradChannel c1 c2 0 = c1 := by
  simp only [gradChannel, mul_zero, sub_zero, mul_one, add_zero, pyInt]
  split <;> simp

theorem gradChannel_one (c1 c2 : ℤ) : gradChannel c1 c2 1 = c2 := by
  simp only [gradChannel, sub_self, mul_zero, mul_one, zero_add, pyInt]
  split <;> simp

theorem gradChannel_mid_255 : gradChannel 255 0 2⁻¹ = 127 := by
  rw [gradChannel, pyInt, if_pos (by norm_num)]
  norm_num

theorem gradChannel_mid_alpha : gradChannel 255 255 2⁻¹ = 255 := by
  rw [gradChannel, pyInt, if_pos (by norm_num)]
  norm_num

/-- C8 (amended): the vertical gradient computes each scanline channel as
`int(start*(1-t) + end*t)` with `t = y/(height-1)` — truncated toward zero,
not rounded to nearest — so for a vertical gradient from white
(255,255,255,255) to black (0,0,0,255) over height `H ≥ 2`: row 0 is exactly
white, row `H-1` is exactly black, and for odd `H` the middle row `H/2` is
(127,127,127) (within 1 of the nominal mid-gray 128). -/
theorem draw_gradient_endpoints (W H x : ℕ) (h2 : 2 ≤ H) :
    draw_gradient ⟨255, 255, 255, 255⟩ ⟨0, 0, 0, 255⟩ W H .vertical x 0
        = ⟨255, 255, 255, 255⟩
    ∧ draw_gradient ⟨255, 255, 255, 255⟩ ⟨0, 0, 0, 255⟩ W H .vertical x (H - 1)
        = ⟨0, 0, 0, 255⟩
    ∧ (H % 2 = 1 →
        draw_gradient ⟨255, 255, 255, 255⟩ ⟨0, 0, 0, 255⟩ W H .vertical x (H / 2)
          = ⟨127, 127, 127, 255⟩) := by
  refine ⟨?_, ?_, fun hodd => ?_⟩
  · simp [draw_gradient, gradRowColor, gradT_zero, gradChannel_zero]
  · simp [draw_gradient, gradRowColor, gradT_last H h2, gradChannel_one]
  · simp [draw_gradient, gradRowColor, gradT_mid H h2 hodd,
      gradChannel_mid_255, gradChannel_mid_alpha]

/-- C8 witness: the amended gradient theorem at height 5: row 0 white, row 4
black, row 2 equal to (127,127,127,255). -/
theorem draw_gradient_endpoints_witness :
    draw_gradient ⟨255, 255, 255, 255⟩ ⟨0, 0, 0, 255⟩ 4 5 .vertical 0 0
        = ⟨255, 255, 255, 255⟩
    ∧ draw_gradient ⟨255, 255, 255, 255⟩ ⟨0, 0, 0, 255⟩ 4 5 .vertical 0 (5 - 1)
        = ⟨0, 0, 0, 255⟩
    ∧ (5 % 2 = 1 →
        draw_gradient ⟨255, 255, 255, 255⟩ ⟨0, 0, 0, 255⟩ 4 5 .vertical 0 (5 / 2)
          = ⟨127, 127, 127, 255⟩) :=
  draw_gradient_endpoints 4 5 0 (by omega)

unseal Rat.mul Rat.add Rat.sub Rat.inv in
/-- C8 counterexample: the code truncates instead of rounding to nearest —
at height 5, row 3 the exact value is 63.75, the code yields 63 while
round-to-nearest yields 64; and for even height 4 the "middle" row
`H/2 = 2` is (85,85,85), nowhere near mid-gray 128. -/
theorem draw_gradient_rounding_counterexample :
    gradChannel 255 0 (gradT 3 5) = 63
    ∧ roundNearest ((255 : ℚ) * (1 - gradT 3 5) + (0 : ℚ) * gradT 3 5) = 64
    ∧ draw_gradient ⟨255, 255, 255, 255⟩ ⟨0, 0, 0, 255⟩ 4 4 .vertical 0 2
        = ⟨85, 85, 85, 255⟩ := by
  decide

/-- C10: in the fixed-box pipeline the typing phase applies no punctuation
pauses and no frames-per-character scaling; each kept line of length `L`
contributes exactly `L + 1` frames, the first of which shows the empty
prefix, and the dwell phase appends exactly `int(dwell_time * fps)` frames
showing every kept line in full, so the total number of frames written is
`sum(len(line) + 1 for kept lines) + int(dwell_time * fps)`. -/
theorem gradient_pipeline_frame_count (text_lines : List (List Char))
    (line_height : ℤ) (cfg : GradCfg)
    (hdw : 0 ≤ cfg.dwell_time * (cfg.fps : ℚ)) :
    (generate_frames text_lines line_height cfg).length
        = ((keptLines text_lines line_height cfg).map
            (fun l => l.length + 1)).sum + dwellN cfg
    ∧ (dwellN cfg : ℤ) = pyInt (cfg.dwell_time * (cfg.fps : ℚ))
    ∧ (keptLines text_lines line_height cfg ≠ [] →
        (generate_frames text_lines line_height cfg).head? = some [[]])
    ∧ (generate_frames text_lines line_height cfg).drop
          ((gradTyping (keptLines text_lines line_height cfg) 0 0).length)
        = List.replicate (dwellN cfg) (keptLines text_lines line_height cfg) := by
  refine ⟨?_, ?_, ?_, ?_⟩
  · rw [generate_frames, List.length_append, List.length_replicate]
    rw [gradTyping_length (keptLines text_lines line_height cfg) 0 0
      (Nat.zero_le _)]
    simp
  · have hp : 0 ≤ pyInt (cfg.dwell_time * (cfg.fps : ℚ)) := by
      rw [pyInt, if_pos hdw]
      exact Int.floor_nonneg.mpr hdw
    rw [dwellN, Int.toNat_of_nonneg hp]
  · intro hne
    rw [generate_frames]
    cases hkc : keptLines text_lines line_height cfg with
    | nil => exact absurd hkc hne
    | cons l ls =>
        rw [gradTyping, dif_pos (by simp)]
        split <;> simp
  · rw [generate_frames, List.drop_left]

unseal Rat.mul Rat.add in
/-- C10 witness: the count formula at two kept lines "a" and "bc" with a
1-second dwell at 2 fps: (1+1) + (2+1) + 2 = 7 frames. -/
theorem gradient_pipeline_frame_count_witness :
    (generate_frames [['a'], ['b', 'c']] 10 ⟨100, 30, 0, 2, 1⟩).length
        = ((keptLines [['a'], ['b', 'c']] 10 ⟨100, 30, 0, 2, 1⟩).map
            (fun l => l.length + 1)).sum + dwellN ⟨100, 30, 0, 2, 1⟩ :=
  (gradient_pipeline_frame_count [['a'], ['b', 'c']] 10 ⟨100, 30, 0, 2, 1⟩
    (by decide)).1

/-- C9: in fixed-box layout mode the compositor renders only the first
`(boxHeight - 2*padding) // lineHeight` lines and silently ignores the
rest: the frame sequence is unchanged when the supplied line list is
truncated to that many lines, and everything any frame displays is a prefix
of one of those first lines. -/
theorem fixed_box_truncation (text_lines : List (List Char)) (lh : ℤ)
    (cfg : GradCfg) (hlh : 1 ≤ lh)
    (hgeo : 0 ≤ cfg.box_h - 2 * cfg.padding) :
    generate_frames text_lines lh cfg
        = generate_frames
            (text_lines.take ((cfg.box_h - 2 * cfg.padding).fdiv lh).toNat)
            lh cfg
    ∧ (∀ frame ∈ generate_frames text_lines lh cfg, ∀ s ∈ frame,
        ∃ j, j < ((cfg.box_h - 2 * cfg.padding).fdiv lh).toNat ∧
          ∃ m, s = (text_lines.getD j []).take m) := by
  have hk0 : 0 ≤ (cfg.box_h - 2 * cfg.padding).fdiv lh :=
    Int.fdiv_nonneg hgeo (by omega)
  have hkept : keptLines text_lines lh cfg =
      text_lines.take ((cfg.box_h - 2 * cfg.padding).fdiv lh).toNat := by
    rw [keptLines, pySliceTo, if_pos hk0]
  have hkept2 : keptLines
      (text_lines.take ((cfg.box_h - 2 * cfg.padding).fdiv lh).toNat) lh cfg =
      text_lines.take ((cfg.box_h - 2 * cfg.padding).fdiv lh).toNat := by
    rw [keptLines, pySliceTo, if_pos hk0, List.take_take]
    simp
  constructor
  · rw [generate_frames, generate_frames, hkept, hkept2]
  · intro frame hf s hs
    rw [generate_frames, hkept] at hf
    have htrans : ∀ j,
        j < (text_lines.take
            ((cfg.box_h - 2 * cfg.padding).fdiv lh).toNat).length →
        (text_lines.take ((cfg.box_h - 2 * cfg.padding).fdiv lh).toNat).getD
            j [] = text_lines.getD j [] := by
      intro j hj
      have hj2 : j < text_lines.length := by
        rw [List.length_take] at hj
        omega
      rw [List.getD_eq_getElem _ _ hj, List.getElem_take,
        List.getD_eq_getElem _ _ hj2]
    have hlen : (text_lines.take
        ((cfg.box_h - 2 * cfg.padding).fdiv lh).toNat).length ≤
        ((cfg.box_h - 2 * cfg.padding).fdiv lh).toNat := by
      rw [List.length_take]
      omega
    rw [List.mem_append] at hf
    rcases hf with hf | hf
    · obtain ⟨j, hj, m, hm⟩ := gradTyping_mem _ 0 0 frame hf s hs
      exact ⟨j, by omega, m, by rw [hm, htrans j hj]⟩
    · have hfk := List.eq_of_mem_replicate hf
      subst hfk
      obtain ⟨j, hj, m, hm⟩ := gradTyping_mem_full _ s hs
      exact ⟨j, by omega, m, by rw [hm, htrans j hj]⟩

/-- C9 witness: with box height 30, padding 0 and line height 10 (room for
exactly 3 lines) but 5 lines supplied, the frame sequence equals the one
produced from just the first 3 lines. -/
theorem fixed_box_truncation_witness :
    generate_frames [['a'], ['b'], ['c'], ['d'], ['e']] 10 ⟨100, 30, 0, 2, 1⟩
        = generate_frames
            ([['a'], ['b'], ['c'], ['d'], ['e']].take
              (((30 : ℤ) - 2 * 0).fdiv 10).toNat) 10 ⟨100, 30, 0, 2, 1⟩ :=
  (fixed_box_truncation [['a'], ['b'], ['c'], ['d'], ['e']] 10
    ⟨100, 30, 0, 2, 1⟩ (by decide) (by decide)).1
